import Mathlib

/-!
Shallow embedding of the `load_data` pipeline and its classification helpers
from `src/main.py` (a pandas/sklearn analytics pipeline), together with
theorems settling the specification claims about it.

Modelling conventions:
* A normalized event row is `(page, month, clicks)`; `month` is the
  `year*12+month` style day-truncated calendar month, modelled as `ℕ`
  (only its linear order matters).  `clicks` is an integer (`ℤ`).
* Exact rational arithmetic (`ℚ`) stands in for `float64`; `round(0)` /
  `.round(1)` are numpy round-half-to-even, modelled by `roundHalfEven`.
* pandas operations that raise (division by zero followed by
  `astype(int)` on non-finite values at main.py:45, `last_month.start_time`
  on the NaN maximum of an empty series at main.py:41) are modelled by the
  pipeline returning `none`.
* The NaN produced at main.py:56 when a page's mean clicks is 0 is
  modelled by `trendPct` returning `none`; pandas comparisons with NaN are
  false, which `isImproving`/`isStable`/`isDeclining` reproduce on `none`.
* `daysPassed` and `totalDays` depend on the wall clock
  (`pd.Timestamp.now()` at main.py:41-42) and are passed as parameters.
-/

namespace ContentDecay

/-- Normalized event row (after schema normalization): one input row with its
page, its day-truncated month (`data['date'].dt.to_period('M')`,
main.py:33) and its clicks. -/
structure Event where
  page : String
  month : ℕ
  clicks : ℤ
deriving DecidableEq, Repr

/-- Round half to even (numpy `.round(0)` / Python `round`), on `ℚ`. -/
def roundHalfEven (q : ℚ) : ℤ :=
  if q - ⌊q⌋ < 1/2 then ⌊q⌋
  else if 1/2 < q - ⌊q⌋ then ⌊q⌋ + 1
  else if ⌊q⌋ % 2 = 0 then ⌊q⌋ else ⌊q⌋ + 1

/-- Round to one decimal place, half to even (`Series.round(1)`, main.py:58). -/
def round1 (q : ℚ) : ℚ := (roundHalfEven (q * 10) : ℚ) / 10

/-- All distinct months of the dataset, ascending — the column order produced
by `pivot(index='page', columns='month_year')` (main.py:61) and the order
`groupby(['page','month_year'])` imposes within one page (main.py:36). -/
def monthsOfAll (events : List Event) : List ℕ :=
  List.insertionSort (· ≤ ·) (events.map (·.month)).dedup

/-- Distinct pages of the dataset, first-occurrence order (only the set and
the count matter to the claims). -/
def pagesOf (events : List Event) : List String :=
  (events.map (·.page)).dedup

/-- Global maximum month: `grouped_data['month_year'].max()` (main.py:40).
Junk value `0` on the empty list; `loadData` never uses it there. -/
def lastMonthOf (events : List Event) : ℕ :=
  (events.map (·.month)).foldl max 0

/-- Whether the aggregate table has a row for `(p, m)`, i.e. some event of
page `p` falls in month `m`. -/
def hasRow (events : List Event) (p : String) (m : ℕ) : Bool :=
  events.any (fun e => e.page = p && e.month = m)

/-- Monthly aggregate: sum of clicks over the events of page `p` in month
`m` (`groupby(['page','month_year'])['clicks'].sum()`, main.py:36; the
`round(0).astype(int)` of main.py:37 is the identity on integer sums). -/
def agg (events : List Event) (p : String) (m : ℕ) : ℤ :=
  ((events.filter (fun e => e.page = p && e.month = m)).map (·.clicks)).sum

/-- Projected aggregate: rows of the global last month are rescaled to
`round(clicks / days_passed * total_days)` (main.py:45); every other month
keeps its aggregate. -/
def proj (events : List Event) (daysPassed totalDays : ℕ) (p : String) (m : ℕ) : ℤ :=
  if m = lastMonthOf events then
    roundHalfEven ((agg events p m : ℚ) / daysPassed * totalDays)
  else agg events p m

/-- The months in which page `p` has at least one event, ascending: the rows
of `grouped_data` belonging to `p`, in the order `groupby` leaves them. -/
def pageMonths (events : List Event) (p : String) : List ℕ :=
  (monthsOfAll events).filter (fun m => hasRow events p m)

/-- Sum of a series (`Σ y`). -/
def sY (ys : List ℚ) : ℚ := ys.sum

/-- Index-weighted sum `Σ i * y_i` over indices `0, 1, 2, …` — the regressor
is `np.arange(len(x))` (main.py:56). -/
def sXY (ys : List ℚ) : ℚ :=
  ∑ i ∈ Finset.range ys.length, (i : ℚ) * ys.getD i 0

/-- Sum of the indices `0 + 1 + ⋯ + (n-1)`. -/
def sX (n : ℕ) : ℚ := ∑ i ∈ Finset.range n, (i : ℚ)

/-- Sum of squared indices. -/
def sXX (n : ℕ) : ℚ := ∑ i ∈ Finset.range n, (i : ℚ) ^ 2

/-- Ordinary least-squares slope of `ys` against the index sequence
`0, 1, …, len ys - 1` (closed form of `LinearRegression().fit(...).coef_[0]`,
main.py:56).  For a single point the denominator is `0` and `ℚ` division
gives `0`, matching sklearn's zero coefficient on one centered sample. -/
def slope (ys : List ℚ) : ℚ :=
  ((ys.length : ℚ) * sXY ys - sX ys.length * sY ys) /
    ((ys.length : ℚ) * sXX ys.length - (sX ys.length) ^ 2)

/-- Mean of a series (`x['clicks'].mean()`, main.py:56). -/
def meanQ (ys : List ℚ) : ℚ := sY ys / (ys.length : ℚ)

/-- Trend percentage of a page's series: `coef_[0] / mean * 100` rounded to
one decimal (main.py:56-58).  `none` models the NaN that numpy produces when
the mean is 0. -/
def trendPct (ys : List ℚ) : Option ℚ :=
  if meanQ ys = 0 then none
  else some (round1 (slope ys / meanQ ys * 100))

/-- One row of the final wide table: the pivot cells (one per month of
`monthsOfAll`, missing combinations zero-filled, main.py:61-63), the
history list, the total, the optional un-projected current-month count, and
the trend percentage (`none` = NaN). -/
structure ReportRow where
  page : String
  pivot : List ℤ
  clicks_history : List ℤ
  total_clicks : ℤ
  real_clicks_current_month : Option ℤ
  trend_percentage : Option ℚ
deriving DecidableEq, Repr

/-- Assemble the report row of page `p`: history, totals and trend are
computed from the projected aggregates (main.py:48-58), the pivot is
zero-filled over all months (main.py:61-63), and the real-clicks column is
the left merge of the pre-projection snapshot (main.py:43-44, 68). -/
def mkRow (events : List Event) (daysPassed totalDays : ℕ) (p : String) : ReportRow :=
  let hist := (pageMonths events p).map (proj events daysPassed totalDays p)
  { page := p
    pivot := (monthsOfAll events).map (fun m =>
      if hasRow events p m then proj events daysPassed totalDays p m else 0)
    clicks_history := hist
    total_clicks := hist.sum
    real_clicks_current_month :=
      if hasRow events p (lastMonthOf events) then
        some (agg events p (lastMonthOf events))
      else none
    trend_percentage := trendPct (hist.map (fun z : ℤ => (z : ℚ))) }

/-- Column label of the merged wide table (the pandas column Index holds
the string `'page'`, one `Period` per month, and the four merged-in string
labels; distinct months have distinct labels).  `projectedTag c` models the
relabelling `c + ' (projected clicks)'` of main.py:73. -/
inductive ColLabel where
  | page
  | month (m : ℕ)
  | clicksHistory
  | totalClicks
  | realClicksCurrentMonth
  | trendPercentage
  | projectedTag (c : ColLabel)
deriving DecidableEq, Repr

/-- The four columns merged in after the month columns (main.py:66-69). -/
def metaColumns : List ColLabel :=
  [ColLabel.clicksHistory, ColLabel.totalClicks,
   ColLabel.realClicksCurrentMonth, ColLabel.trendPercentage]

/-- Column labels of the merged wide table before the final rename:
`page`, one label per month ascending, then the merged-in columns. -/
def rawColumns (events : List Event) : List ColLabel :=
  ColLabel.page :: ((monthsOfAll events).map ColLabel.month ++ metaColumns)

/-- The final rename (main.py:71-73): take the label at position `-6`
(`pivot_data.columns[-6]`) and append the projected-clicks suffix to every
column bearing that label. -/
def renameLastMonthColumn (cols : List ColLabel) : List ColLabel :=
  let selected := cols.getD (cols.length - 6) ColLabel.page
  cols.map (fun c => if c = selected then ColLabel.projectedTag c else c)

/-- The final report: one row per distinct page plus the column labels. -/
structure Report where
  rows : List ReportRow
  columns : List ColLabel
deriving DecidableEq, Repr

/-- The pipeline `load_data` from the normalized events on: `none` models a
raised pandas error — the `AttributeError` on the NaN maximum of an empty
month series (main.py:41) and the `IntCastingNaNError` from
`astype(int)` on the non-finite values of a division by `days_passed = 0`
(main.py:45). -/
def loadData (events : List Event) (daysPassed totalDays : ℕ) : Option Report :=
  if events.isEmpty then none
  else if daysPassed = 0 then none
  else some
    { rows := (pagesOf events).map (mkRow events daysPassed totalDays)
      columns := renameLastMonthColumn (rawColumns events) }

/-- Improving test (`data['trend_percentage'] > 10`, main.py:129; on the NaN
row pandas' comparison is false). -/
def isImproving : Option ℚ → Bool
  | none => false
  | some q => decide (10 < q)

/-- Stable test (`(data['trend_percentage'] >= -10) & (data['trend_percentage'] <= 10)`,
main.py:130). -/
def isStable : Option ℚ → Bool
  | none => false
  | some q => decide (-10 ≤ q ∧ q ≤ 10)

/-- Declining test (`data['trend_percentage'] < -10`, main.py:131). -/
def isDeclining : Option ℚ → Bool
  | none => false
  | some q => decide (q < -10)

/-- Count of improving rows (main.py:129). -/
def improvingCount (r : Report) : ℕ :=
  (r.rows.filter (fun row => isImproving row.trend_percentage)).length

/-- Count of stable rows (main.py:130). -/
def stableCount (r : Report) : ℕ :=
  (r.rows.filter (fun row => isStable row.trend_percentage)).length

/-- Count of declining rows (main.py:131). -/
def decliningCount (r : Report) : ℕ :=
  (r.rows.filter (fun row => isDeclining row.trend_percentage)).length

/-- Count of rows whose trend value is an actual number (not the NaN case). -/
def definedTrendCount (r : Report) : ℕ :=
  (r.rows.filter (fun row => row.trend_percentage.isSome)).length

/-- The page-column aliases the normalizer renames (main.py:23). -/
def pageVariants : List String := ["address", "adresse", "url"]

/-- One step of the alias loop (main.py:24-26): if `v` occurs among the
columns, `rename(columns={v: 'page'})` relabels every column named `v`. -/
def renameVariantStep (cs : List String) (v : String) : List String :=
  if v ∈ cs then cs.map (fun c => if c = v then "page" else c) else cs

/-- ASCII lower-casing of one column name, modelling Python `str.lower`
(main.py:21; the recognized column names are ASCII). -/
def toLowerStr (s : String) : String := String.mk (s.data.map Char.toLower)

/-- Column-name normalization (main.py:21-26): lower-case all names, then
run the alias loop over `pageVariants` in order. -/
def normalizeColumns (cols : List String) : List String :=
  pageVariants.foldl renameVariantStep (cols.map toLowerStr)

/-- The required columns (main.py:28). -/
def requiredColumns : List String := ["date", "clicks", "page"]

/-- The validation `set(required_columns).issubset(data.columns)`
(main.py:29). -/
def validColumns (cs : List String) : Bool :=
  requiredColumns.all (fun c => cs.contains c)

/-! ### General lemmas about the embedded pipeline -/

theorem mkRow_page (events : List Event) (d t : ℕ) (p : String) :
    (mkRow events d t p).page = p := rfl

/-- Unfolding of a successful pipeline run. -/
theorem loadData_some {events : List Event} {d t : ℕ} {r : Report}
    (h : loadData events d t = some r) :
    events ≠ [] ∧ d ≠ 0 ∧
      r.rows = (pagesOf events).map (mkRow events d t) ∧
      r.columns = renameLastMonthColumn (rawColumns events) := by
  by_cases he : events.isEmpty
  · simp [loadData, he] at h
  · by_cases hd : d = 0
    · simp [loadData, he, hd] at h
    · refine ⟨by simpa using he, hd, ?_, ?_⟩ <;>
      · simp only [loadData, he, hd, if_false, Bool.false_eq_true, if_neg, Option.some.injEq] at h
        cases h
        rfl

/-- Every row of a successful report is the assembled row of its page. -/
theorem mem_rows_eq_mkRow {events : List Event} {d t : ℕ} {r : Report}
    (h : loadData events d t = some r) {row : ReportRow} (hrow : row ∈ r.rows) :
    ∃ p ∈ pagesOf events, row = mkRow events d t p := by
  obtain ⟨-, -, hrows, -⟩ := loadData_some h
  rw [hrows] at hrow
  obtain ⟨p, hp, rfl⟩ := List.mem_map.1 hrow
  exact ⟨p, hp, rfl⟩

/-- The pivot field of an assembled row, spelled out. -/
theorem mkRow_pivot (events : List Event) (d t : ℕ) (p : String) :
    (mkRow events d t p).pivot = (monthsOfAll events).map (fun m =>
      if hasRow events p m then proj events d t p m else 0) := rfl

/-- The history field of an assembled row, spelled out. -/
theorem mkRow_history (events : List Event) (d t : ℕ) (p : String) :
    (mkRow events d t p).clicks_history = (pageMonths events p).map (proj events d t p) := rfl

/-- The real-clicks field of an assembled row, spelled out. -/
theorem mkRow_real (events : List Event) (d t : ℕ) (p : String) :
    (mkRow events d t p).real_clicks_current_month =
      if hasRow events p (lastMonthOf events) then
        some (agg events p (lastMonthOf events))
      else none := rfl

/-- The trend field of an assembled row, spelled out. -/
theorem mkRow_trend (events : List Event) (d t : ℕ) (p : String) :
    (mkRow events d t p).trend_percentage =
      trendPct (((pageMonths events p).map (proj events d t p)).map (fun z : ℤ => (z : ℚ))) := rfl

/-- Reading a mapped list through `getD` at an in-range index. -/
theorem getD_map {α β : Type} (f : α → β) :
    ∀ (l : List α) (i : ℕ), i < l.length → ∀ (d0 : β) (d1 : α),
      (l.map f).getD i d0 = f (l.getD i d1)
  | [], i, h, _, _ => absurd h (by simp)
  | a :: l, 0, _, _, _ => by simp
  | a :: l, i + 1, h, d0, d1 => by
      simpa using getD_map f l i (by simpa using h) d0 d1

/-! ### C1: projection rescales exactly the last-month rows -/

/-- C1: for a nonempty aggregate set with `days_passed > 0`, every report
row's pivot cell at a month the page actually has equals the rescaled value
`round(clicks / days_passed * total_days)` when that month is the global
last month and the raw aggregate otherwise, and
`real_clicks_current_month` snapshots the un-projected last-month aggregate
(`none` for pages with no last-month row). -/
theorem c1_projection_and_snapshot (events : List Event) (d t : ℕ) (r : Report)
    (hload : loadData events d t = some r) (hd : 0 < d) :
    ∀ row ∈ r.rows,
      (∀ i m : ℕ, i < (monthsOfAll events).length → (monthsOfAll events).getD i 0 = m →
         hasRow events row.page m = true →
         row.pivot.getD i 0 =
           (if m = lastMonthOf events then
             roundHalfEven ((agg events row.page m : ℚ) / d * t)
           else agg events row.page m))
      ∧ (row.real_clicks_current_month =
           if hasRow events row.page (lastMonthOf events) = true then
             some (agg events row.page (lastMonthOf events))
           else none) := by
  intro row hrow
  obtain ⟨p, hp, rfl⟩ := mem_rows_eq_mkRow hload hrow
  simp only [mkRow_page]
  constructor
  · intro i m hi hm hhas
    rw [mkRow_pivot, getD_map _ _ i hi 0 0, hm]
    simp [hhas, proj]
  · rw [mkRow_real]

/-- Concrete input realizing the spec's projection example: 10 days passed
of a 30-day month, 40 raw clicks in the in-progress month. -/
def evC1 : List Event := [⟨"/a", 0, 7⟩, ⟨"/a", 1, 40⟩]

/-- The report the pipeline produces on `evC1` with `d = 10`, `t = 30`. -/
def rowC1 : ReportRow :=
  { page := "/a", pivot := [7, 120], clicks_history := [7, 120],
    total_clicks := 127, real_clicks_current_month := some 40,
    trend_percentage := some 178 }

/-- The full report on `evC1`. -/
def reportC1 : Report :=
  { rows := [rowC1]
    columns := [ColLabel.page, ColLabel.projectedTag (ColLabel.month 0),
                ColLabel.month 1, ColLabel.clicksHistory, ColLabel.totalClicks,
                ColLabel.realClicksCurrentMonth, ColLabel.trendPercentage] }

/-- Evaluation of the pipeline on `evC1`. -/
theorem loadData_evC1 : loadData evC1 10 30 = some reportC1 := by
  norm_num +decide [evC1, rowC1, reportC1, loadData, mkRow, pagesOf, monthsOfAll, lastMonthOf,
    hasRow, agg, proj, pageMonths, trendPct, meanQ, sY, ContentDecay.slope, sXY, sX, sXX,
    round1, roundHalfEven, rawColumns, metaColumns, renameLastMonthColumn, Finset.sum_range_succ,
    List.insertionSort, List.orderedInsert, List.dedup_cons_of_mem, List.dedup_cons_of_not_mem,
    Int.floor_eq_iff]

/-- Witness for C1 at the spec's own example: 10 days passed of a 30-day
month with 40 raw clicks in the last month projects to 120, the first
month's 7 stays, and the raw 40 is snapshotted. -/
theorem c1_witness :
    loadData evC1 10 30 = some reportC1 ∧ rowC1 ∈ reportC1.rows ∧
      rowC1.pivot.getD 1 0 = 120 ∧ rowC1.pivot.getD 0 0 = 7 ∧
      rowC1.real_clicks_current_month = some 40 := by
  have h := c1_projection_and_snapshot evC1 10 30 reportC1 loadData_evC1 (by norm_num)
  have hmem : rowC1 ∈ reportC1.rows := by simp [reportC1]
  refine ⟨loadData_evC1, hmem, ?_, ?_, ?_⟩
  · rw [(h rowC1 hmem).1 1 1 (by decide) (by decide) (by decide)]
    norm_num +decide [evC1, rowC1, lastMonthOf, agg, roundHalfEven, Int.floor_eq_iff]
  · rw [(h rowC1 hmem).1 0 0 (by decide) (by decide) (by decide)]
    norm_num +decide [evC1, rowC1, lastMonthOf, agg]
  · rw [(h rowC1 hmem).2]
    norm_num +decide [evC1, rowC1, lastMonthOf, hasRow, agg]

/-! ### C2: behaviour at `days_passed == 0` -/

/-- C2 (violated by the code): with `days_passed = 0` the division at
main.py:45 produces non-finite values and `astype(int)` raises, i.e. the
run aborts (`none`) instead of applying a defined fallback. -/
theorem c2_days_passed_zero_aborts (t : ℕ) :
    loadData [⟨"/a", 0, 40⟩] 0 t = none := by
  simp [loadData]

/-! ### C7: behaviour on empty input -/

/-- C7 (violated by the code): on zero normalized rows the pipeline does
not return an empty report — `grouped_data['month_year'].max()` is NaN and
`last_month.start_time` (main.py:41) raises, i.e. the run aborts. -/
theorem c7_empty_input_aborts (d t : ℕ) :
    loadData [] d t = none := by
  simp [loadData]

/-! ### A two-page concrete run shared by several claims -/

/-- Two pages over months 0 and 1; page `/b` has no row in the last month. -/
def evAB : List Event := [⟨"/a", 0, 5⟩, ⟨"/a", 1, 7⟩, ⟨"/b", 0, 3⟩]

/-- Row of `/a` in the report on `evAB` with `d = t = 30`. -/
def rowA : ReportRow :=
  { page := "/a", pivot := [5, 7], clicks_history := [5, 7], total_clicks := 12,
    real_clicks_current_month := some 7, trend_percentage := some (333/10) }

/-- Row of `/b`: only one history entry, zero-filled pivot, no real-clicks
value (absent from the last month). -/
def rowB : ReportRow :=
  { page := "/b", pivot := [3, 0], clicks_history := [3], total_clicks := 3,
    real_clicks_current_month := none, trend_percentage := some 0 }

/-- The full report on `evAB`: note the projected-clicks tag lands on the
`month 0` column. -/
def reportAB : Report :=
  { rows := [rowA, rowB]
    columns := [ColLabel.page, ColLabel.projectedTag (ColLabel.month 0), ColLabel.month 1,
                ColLabel.clicksHistory, ColLabel.totalClicks,
                ColLabel.realClicksCurrentMonth, ColLabel.trendPercentage] }

/-- Evaluation of the pipeline on `evAB`. -/
theorem loadData_evAB : loadData evAB 30 30 = some reportAB := by
  norm_num +decide [evAB, rowA, rowB, reportAB, loadData, mkRow, pagesOf, monthsOfAll,
    lastMonthOf, hasRow, agg, proj, pageMonths, trendPct, meanQ, sY, ContentDecay.slope,
    sXY, sX, sXX, round1, roundHalfEven, rawColumns, metaColumns, renameLastMonthColumn,
    Finset.sum_range_succ, List.insertionSort, List.orderedInsert, List.dedup_cons_of_mem,
    List.dedup_cons_of_not_mem, Int.floor_eq_iff]

/-! ### C4: clicks_history has entries only for the page's own months -/

/-- C4 (amended): each page's `clicks_history` lists the projected clicks
of the months in which the page itself has rows (ascending), so it is never
longer than the global month list, and it matches the zero-filled pivot
exactly when the page appears in every month — but absent months produce no
zero entry in the history. -/
theorem c4_history_per_page_months (events : List Event) (d t : ℕ) (r : Report)
    (hload : loadData events d t = some r) :
    ∀ row ∈ r.rows,
      row.clicks_history = (pageMonths events row.page).map (proj events d t row.page)
      ∧ row.clicks_history.length ≤ (monthsOfAll events).length
      ∧ ((∀ m ∈ monthsOfAll events, hasRow events row.page m = true) →
          row.clicks_history = row.pivot) := by
  intro row hrow
  obtain ⟨p, hp, rfl⟩ := mem_rows_eq_mkRow hload hrow
  simp only [mkRow_page]
  refine ⟨mkRow_history events d t p, ?_, ?_⟩
  · rw [mkRow_history, List.length_map]
    exact List.length_filter_le _ _
  · intro hall
    rw [mkRow_history, mkRow_pivot]
    unfold pageMonths
    rw [List.filter_eq_self.2 hall]
    exact List.map_congr_left fun m hm => (if_pos (hall m hm)).symm

/-- Counterexample to C4 as stated: on `evAB` there are two distinct
months, yet page `/b`'s `clicks_history` is `[3]` — one entry, no explicit
zero for month 1 — while its pivot row is the zero-filled `[3, 0]`. -/
theorem c4_counterexample :
    loadData evAB 30 30 = some reportAB ∧
    (monthsOfAll evAB).length = 2 ∧
    ∃ row ∈ reportAB.rows, row.clicks_history = [3] ∧ row.pivot = [3, 0] ∧
      ¬ row.clicks_history.length = (monthsOfAll evAB).length := by
  refine ⟨loadData_evAB, by decide, rowB, by simp [reportAB], rfl, rfl, by decide⟩

/-- Witness for C4's amended theorem, instantiated at page `/b` of the
concrete run `evAB`. -/
theorem c4_witness :
    rowB.clicks_history = (pageMonths evAB rowB.page).map (proj evAB 30 30 rowB.page)
    ∧ rowB.clicks_history.length ≤ (monthsOfAll evAB).length
    ∧ ((∀ m ∈ monthsOfAll evAB, hasRow evAB rowB.page m = true) →
        rowB.clicks_history = rowB.pivot) :=
  c4_history_per_page_months evAB 30 30 reportAB loadData_evAB rowB (by simp [reportAB])

/-! ### C5: which column is relabeled as projected -/

/-- C5 (violated by the code): `pivot_data.columns[-6]` (main.py:72) is the
second-to-last month column, not the `last_month` column — on `evAB` the
tag lands on month 0 while the last month is 1, whose column keeps its
plain label. -/
theorem c5_wrong_column_relabeled :
    loadData evAB 30 30 = some reportAB ∧
    lastMonthOf evAB = 1 ∧
    reportAB.columns = [ColLabel.page, ColLabel.projectedTag (ColLabel.month 0),
      ColLabel.month 1, ColLabel.clicksHistory, ColLabel.totalClicks,
      ColLabel.realClicksCurrentMonth, ColLabel.trendPercentage] ∧
    ColLabel.projectedTag (ColLabel.month (lastMonthOf evAB)) ∉ reportAB.columns ∧
    ColLabel.month (lastMonthOf evAB) ∈ reportAB.columns := by
  refine ⟨loadData_evAB, by decide, rfl, by decide, by decide⟩

/-! ### C6: page-set invariant of the merged report -/

/-- C6: a successful report has exactly the distinct pages of the
normalized events (as a set and as a row count), and a page absent from
the last month keeps its row with a null `real_clicks_current_month`. -/
theorem c6_page_set_and_merge_invariant (events : List Event) (d t : ℕ) (r : Report)
    (hload : loadData events d t = some r) :
    (r.rows.map (fun row => row.page)).toFinset = (events.map (fun e => e.page)).toFinset
    ∧ r.rows.length = (events.map (fun e => e.page)).toFinset.card
    ∧ (∀ row ∈ r.rows,
        (row.real_clicks_current_month = none ↔
          hasRow events row.page (lastMonthOf events) = false)) := by
  obtain ⟨-, -, hrows, -⟩ := loadData_some hload
  have hmap : r.rows.map (fun row => row.page) = pagesOf events := by
    rw [hrows, List.map_map]
    simp [Function.comp_def, mkRow_page]
  refine ⟨?_, ?_, ?_⟩
  · rw [hmap]
    exact List.toFinset.ext fun x => List.mem_dedup
  · rw [List.card_toFinset, ← List.length_map r.rows (fun row => row.page), hmap]
    rfl
  · intro row hrow
    obtain ⟨p, hp, rfl⟩ := mem_rows_eq_mkRow hload hrow
    rw [mkRow_page, mkRow_real]
    by_cases hhas : hasRow events p (lastMonthOf events) <;> simp [hhas]

/-- Witness for C6 on the concrete run `evAB` (where `/b` exercises the
null-field-not-dropped-row case). -/
theorem c6_witness :
    (reportAB.rows.map (fun row => row.page)).toFinset = (evAB.map (fun e => e.page)).toFinset
    ∧ reportAB.rows.length = (evAB.map (fun e => e.page)).toFinset.card
    ∧ (∀ row ∈ reportAB.rows,
        (row.real_clicks_current_month = none ↔
          hasRow evAB row.page (lastMonthOf evAB) = false)) :=
  c6_page_set_and_merge_invariant evAB 30 30 reportAB loadData_evAB

/-! ### C8: a page with zero mean clicks puts NaN in the report -/

/-- A single page whose only month has zero clicks. -/
def evC8 : List Event := [⟨"/z", 0, 0⟩]

/-- The report row of `/z`: its trend is the NaN case (`none`). -/
def rowC8 : ReportRow :=
  { page := "/z", pivot := [0], clicks_history := [0], total_clicks := 0,
    real_clicks_current_month := some 0, trend_percentage := none }

/-- The report on `evC8` (with one month, `columns[-6]` is the `page`
column, which receives the projected tag). -/
def reportC8 : Report :=
  { rows := [rowC8]
    columns := [ColLabel.projectedTag ColLabel.page, ColLabel.month 0,
                ColLabel.clicksHistory, ColLabel.totalClicks,
                ColLabel.realClicksCurrentMonth, ColLabel.trendPercentage] }

/-- Evaluation of the pipeline on `evC8`. -/
theorem loadData_evC8 : loadData evC8 10 30 = some reportC8 := by
  norm_num +decide [evC8, rowC8, reportC8, loadData, mkRow, pagesOf, monthsOfAll,
    lastMonthOf, hasRow, agg, proj, pageMonths, trendPct, meanQ, sY, ContentDecay.slope,
    sXY, sX, sXX, round1, roundHalfEven, rawColumns, metaColumns, renameLastMonthColumn,
    Finset.sum_range_succ, List.insertionSort, List.orderedInsert, List.dedup_cons_of_mem,
    List.dedup_cons_of_not_mem, Int.floor_eq_iff]

/-- C8 (violated by the code): for a page whose mean clicks is 0 the
division at main.py:56 silently produces NaN, which reaches the
user-visible `trend_percentage` column (no sentinel, no failure). -/
theorem c8_zero_mean_puts_nan_in_report :
    loadData evC8 10 30 = some reportC8 ∧
    ∃ row ∈ reportC8.rows,
      meanQ (row.clicks_history.map (fun z : ℤ => (z : ℚ))) = 0 ∧
      row.trend_percentage = none := by
  refine ⟨loadData_evC8, rowC8, by simp [reportC8], ?_, rfl⟩
  norm_num [rowC8, meanQ, sY]

/-! ### C9: the three-way classification -/

/-- The threshold trichotomy: on any actual number, exactly one of the
three classifications holds, with the exact strict/inclusive bounds. -/
theorem classification_trichotomy (q : ℚ) :
    (isDeclining (some q) = true ↔ q < -10)
    ∧ (isStable (some q) = true ↔ -10 ≤ q ∧ q ≤ 10)
    ∧ (isImproving (some q) = true ↔ 10 < q)
    ∧ (isDeclining (some q)).toNat + (isStable (some q)).toNat
        + (isImproving (some q)).toNat = 1 := by
  refine ⟨by simp [isDeclining], by simp [isStable], by simp [isImproving], ?_⟩
  by_cases h1 : q < -10
  · have h2 : ¬(-10 ≤ q) := not_le.2 h1
    have h3 : ¬(10 < q) := by linarith
    simp [isDeclining, isStable, isImproving, h1, h2, h3]
  · by_cases h3 : 10 < q
    · have h4 : ¬(q ≤ 10) := not_le.2 h3
      simp [isDeclining, isStable, isImproving, h1, h3, h4]
    · have h2 : -10 ≤ q := not_lt.1 h1
      have h4 : q ≤ 10 := not_lt.1 h3
      simp [isDeclining, isStable, isImproving, h1, h2, h3, h4]

/-- The three classification counts partition the rows whose trend value is
an actual number (NaN rows are counted by none of the three). -/
theorem counts_sum_eq_defined (rows : List ReportRow) :
    (rows.filter (fun row => isImproving row.trend_percentage)).length
      + (rows.filter (fun row => isStable row.trend_percentage)).length
      + (rows.filter (fun row => isDeclining row.trend_percentage)).length
    = (rows.filter (fun row => row.trend_percentage.isSome)).length := by
  induction rows with
  | nil => rfl
  | cons row rows ih =>
    rcases htrend : row.trend_percentage with _ | q
    · have hi2 : isImproving row.trend_percentage = false := by rw [htrend]; rfl
      have hs : isStable row.trend_percentage = false := by rw [htrend]; rfl
      have hd2 : isDeclining row.trend_percentage = false := by rw [htrend]; rfl
      have hsome : row.trend_percentage.isSome = false := by rw [htrend]; rfl
      simp [List.filter_cons, hi2, hs, hd2, hsome, ih]
    · have h1 := (classification_trichotomy q).2.2.2
      simp only [List.filter_cons, htrend]
      cases hd : isDeclining (some q) <;> cases hs : isStable (some q) <;>
        cases hi2 : isImproving (some q) <;> rw [hd, hs, hi2] at h1 <;> simp at h1 <;>
        simp [ih] <;> omega

/-- C9 (amended): for every actual-number trend value exactly one of
{declining, stable, improving} applies, with thresholds exactly `< -10`,
`[-10, 10]`, `> 10`, and the three counts sum to the number of rows whose
`trend_percentage` is an actual number (not NaN). -/
theorem c9_amended_classification (r : Report) :
    (∀ q : ℚ, (isDeclining (some q) = true ↔ q < -10)
      ∧ (isStable (some q) = true ↔ -10 ≤ q ∧ q ≤ 10)
      ∧ (isImproving (some q) = true ↔ 10 < q)
      ∧ (isDeclining (some q)).toNat + (isStable (some q)).toNat
          + (isImproving (some q)).toNat = 1)
    ∧ improvingCount r + stableCount r + decliningCount r = definedTrendCount r :=
  ⟨classification_trichotomy, counts_sum_eq_defined r.rows⟩

/-- Counterexample to C9 as stated: on `evC8` the single report row
carries the NaN trend, none of the three classifications applies to it,
and the summary counts sum to 0 while the page count is 1. -/
theorem c9_counterexample :
    loadData evC8 10 30 = some reportC8 ∧
    reportC8.rows.length = 1 ∧
    improvingCount reportC8 + stableCount reportC8 + decliningCount reportC8 = 0 := by
  exact ⟨loadData_evC8, rfl, rfl⟩

/-! ### C3: machinery for the trend-sign analysis -/

/-- The range-indexed sum of `getD` values is the list sum. -/
theorem sum_getD_range (ys : List ℚ) :
    ∑ i ∈ Finset.range ys.length, ys.getD i 0 = ys.sum := by
  induction ys with
  | nil => simp
  | cons a l ih =>
    rw [List.length_cons, Finset.sum_range_succ']
    simp only [List.getD_cons_succ, List.getD_cons_zero, List.sum_cons]
    rw [ih]
    ring

/-- In a `≤`-sorted list, `getD` is monotone in the index. -/
theorem getD_mono_of_sorted_le {ys : List ℚ} (h : ys.Sorted (· ≤ ·)) {i j : ℕ}
    (hij : i ≤ j) (hj : j < ys.length) : ys.getD i 0 ≤ ys.getD j 0 := by
  rcases eq_or_lt_of_le hij with rfl | hlt
  · exact le_refl _
  · rw [List.getD_eq_get _ _ (lt_trans hlt hj), List.getD_eq_get _ _ hj]
    exact h.rel_get_of_lt (Fin.mk_lt_mk.mpr hlt)

/-- In a `≥`-sorted list, `getD` is antitone in the index. -/
theorem getD_anti_of_sorted_ge {ys : List ℚ} (h : ys.Sorted (· ≥ ·)) {i j : ℕ}
    (hij : i ≤ j) (hj : j < ys.length) : ys.getD j 0 ≤ ys.getD i 0 := by
  rcases eq_or_lt_of_le hij with rfl | hlt
  · exact le_refl _
  · rw [List.getD_eq_get _ _ (lt_trans hlt hj), List.getD_eq_get _ _ hj]
    exact h.rel_get_of_lt (Fin.mk_lt_mk.mpr hlt)

/-- For a `≤`-sorted series, the index and the values monovary. -/
theorem monovary_index_of_sorted {ys : List ℚ} (h : ys.Sorted (· ≤ ·)) :
    MonovaryOn (fun i : ℕ => (i : ℚ)) (fun i => ys.getD i 0) (Finset.range ys.length) := by
  intro i hi j hj hij
  by_contra hc
  push_neg at hc
  have hji : j ≤ i := by exact_mod_cast le_of_lt hc
  exact absurd hij (not_lt.2 (getD_mono_of_sorted_le h hji (Finset.mem_range.1 hi)))

/-- For a `≥`-sorted series, the index and the values antivary. -/
theorem antivary_index_of_sorted {ys : List ℚ} (h : ys.Sorted (· ≥ ·)) :
    AntivaryOn (fun i : ℕ => (i : ℚ)) (fun i => ys.getD i 0) (Finset.range ys.length) := by
  intro i hi j hj hij
  by_contra hc
  push_neg at hc
  have hji : i ≤ j := by exact_mod_cast le_of_lt hc
  exact absurd hij (not_lt.2 (getD_anti_of_sorted_ge h hji (Finset.mem_range.1 hj)))

/-- The OLS denominator `n·Σi² - (Σi)²` is non-negative (Cauchy-Schwarz). -/
theorem slope_den_nonneg (n : ℕ) : 0 ≤ (n : ℚ) * sXX n - sX n ^ 2 := by
  have h := sq_sum_le_card_mul_sum_sq (s := Finset.range n) (f := fun i => (i : ℚ))
  rw [Finset.card_range] at h
  unfold sX sXX
  linarith

/-- The OLS slope of a weakly increasing series is non-negative
(Chebyshev's sum inequality). -/
theorem slope_nonneg_of_sorted {ys : List ℚ} (h : ys.Sorted (· ≤ ·)) : 0 ≤ slope ys := by
  have hche := (monovary_index_of_sorted h).sum_mul_sum_le_card_mul_sum
  rw [Finset.card_range] at hche
  have hnum : 0 ≤ (ys.length : ℚ) * sXY ys - sX ys.length * sY ys := by
    unfold sXY sX sY
    rw [← sum_getD_range ys]
    linarith
  exact div_nonneg hnum (slope_den_nonneg ys.length)

/-- The OLS slope of a weakly decreasing series is non-positive. -/
theorem slope_nonpos_of_sorted {ys : List ℚ} (h : ys.Sorted (· ≥ ·)) : slope ys ≤ 0 := by
  have hche := (antivary_index_of_sorted h).card_mul_sum_le_sum_mul_sum
  rw [Finset.card_range] at hche
  have hnum : (ys.length : ℚ) * sXY ys - sX ys.length * sY ys ≤ 0 := by
    unfold sXY sX sY
    rw [← sum_getD_range ys]
    linarith
  exact div_nonpos_iff.2 (Or.inr ⟨hnum, slope_den_nonneg ys.length⟩)

/-- The OLS slope of a constant series is zero. -/
theorem slope_of_constant {ys : List ℚ} {c : ℚ} (h : ∀ x ∈ ys, x = c) : slope ys = 0 := by
  have hsY : sY ys = (ys.length : ℚ) * c := by
    unfold sY
    rw [List.sum_eq_card_nsmul ys c h, nsmul_eq_mul]
  have hsXY : sXY ys = c * sX ys.length := by
    unfold sXY sX
    rw [Finset.mul_sum]
    refine Finset.sum_congr rfl fun i hi => ?_
    rw [List.getD_eq_get _ _ (Finset.mem_range.1 hi), h _ (List.get_mem ys i _)]
    ring
  unfold slope
  rw [hsXY, hsY]
  have hz : (ys.length : ℚ) * (c * sX ys.length) - sX ys.length * ((ys.length : ℚ) * c) = 0 := by
    ring
  rw [hz, zero_div]

/-- Rounding half-to-even preserves non-negativity. -/
theorem roundHalfEven_nonneg {q : ℚ} (h : 0 ≤ q) : 0 ≤ roundHalfEven q := by
  unfold roundHalfEven
  have hf : (0 : ℤ) ≤ ⌊q⌋ := Int.floor_nonneg.2 h
  split_ifs <;> omega

/-- Rounding half-to-even preserves non-positivity. -/
theorem roundHalfEven_nonpos {q : ℚ} (h : q ≤ 0) : roundHalfEven q ≤ 0 := by
  have hf : ⌊q⌋ ≤ 0 := Int.floor_nonpos h
  have hcast : (⌊q⌋ : ℚ) ≤ q := Int.floor_le q
  unfold roundHalfEven
  split_ifs with h1 h2 h3
  · exact hf
  · have h4 : (⌊q⌋ : ℚ) < -(1/2) := by linarith
    have h5 : ⌊q⌋ < 0 := by
      by_contra hcon
      push_neg at hcon
      have : (0 : ℚ) ≤ (⌊q⌋ : ℚ) := by exact_mod_cast hcon
      linarith
    omega
  · exact hf
  · have h4 : (⌊q⌋ : ℚ) ≤ -(1/2) := by linarith [not_lt.1 h1]
    have h5 : ⌊q⌋ < 0 := by
      by_contra hcon
      push_neg at hcon
      have : (0 : ℚ) ≤ (⌊q⌋ : ℚ) := by exact_mod_cast hcon
      linarith
    omega

/-- One-decimal rounding preserves non-negativity. -/
theorem round1_nonneg {q : ℚ} (h : 0 ≤ q) : 0 ≤ round1 q := by
  unfold round1
  have h10 : 0 ≤ q * 10 := by linarith
  exact div_nonneg (by exact_mod_cast roundHalfEven_nonneg h10) (by norm_num)

/-- One-decimal rounding preserves non-positivity. -/
theorem round1_nonpos {q : ℚ} (h : q ≤ 0) : round1 q ≤ 0 := by
  unfold round1
  have h10 : q * 10 ≤ 0 := by linarith
  refine div_nonpos_iff.2 (Or.inr ⟨?_, by norm_num⟩)
  exact_mod_cast roundHalfEven_nonpos h10

/-- One-decimal rounding of zero is zero. -/
theorem round1_zero : round1 0 = 0 := by
  norm_num [round1, roundHalfEven]

/-- Unfolding of a defined (non-NaN) trend value. -/
theorem trendPct_eq_some {ys : List ℚ} {q : ℚ} (h : trendPct ys = some q) :
    meanQ ys ≠ 0 ∧ q = round1 (slope ys / meanQ ys * 100) := by
  unfold trendPct at h
  by_cases hm : meanQ ys = 0
  · simp [hm] at h
  · rw [if_neg hm] at h
    exact ⟨hm, (Option.some_inj.1 h).symm⟩

/-- A defined trend of a non-negative weakly increasing series is `≥ 0`. -/
theorem trendPct_nonneg {ys : List ℚ} (hpos : ∀ y ∈ ys, 0 ≤ y)
    (hsort : ys.Sorted (· ≤ ·)) {q : ℚ} (h : trendPct ys = some q) : 0 ≤ q := by
  obtain ⟨hm, rfl⟩ := trendPct_eq_some h
  have hsum : 0 ≤ sY ys := List.sum_nonneg hpos
  have hlen : (0 : ℚ) ≤ (ys.length : ℚ) := by positivity
  have hmean : 0 ≤ meanQ ys := div_nonneg hsum hlen
  have hslope := slope_nonneg_of_sorted hsort
  exact round1_nonneg (mul_nonneg (div_nonneg hslope hmean) (by norm_num))

/-- A defined trend of a non-negative weakly decreasing series is `≤ 0`. -/
theorem trendPct_nonpos {ys : List ℚ} (hpos : ∀ y ∈ ys, 0 ≤ y)
    (hsort : ys.Sorted (· ≥ ·)) {q : ℚ} (h : trendPct ys = some q) : q ≤ 0 := by
  obtain ⟨hm, rfl⟩ := trendPct_eq_some h
  have hsum : 0 ≤ sY ys := List.sum_nonneg hpos
  have hlen : (0 : ℚ) ≤ (ys.length : ℚ) := by positivity
  have hmean : 0 ≤ meanQ ys := div_nonneg hsum hlen
  have hslope := slope_nonpos_of_sorted hsort
  have hdiv : slope ys / meanQ ys ≤ 0 := div_nonpos_iff.2 (Or.inr ⟨hslope, hmean⟩)
  exact round1_nonpos (by linarith)

/-- A defined trend of a constant series is zero. -/
theorem trendPct_constant {ys : List ℚ} {c : ℚ} (hc : ∀ x ∈ ys, x = c) {q : ℚ}
    (h : trendPct ys = some q) : q = 0 := by
  obtain ⟨-, rfl⟩ := trendPct_eq_some h
  rw [slope_of_constant hc, zero_div, zero_mul, round1_zero]

/-- Monthly aggregates of non-negative click counts are non-negative. -/
theorem agg_nonneg (events : List Event) (p : String) (m : ℕ)
    (hpos : ∀ e ∈ events, 0 ≤ e.clicks) : 0 ≤ agg events p m := by
  unfold agg
  refine List.sum_nonneg ?_
  intro x hx
  obtain ⟨e, he, rfl⟩ := List.mem_map.1 hx
  exact hpos e (List.mem_filter.1 he).1

/-- Projected aggregates of non-negative click counts are non-negative. -/
theorem proj_nonneg (events : List Event) (d t : ℕ) (p : String) (m : ℕ)
    (hpos : ∀ e ∈ events, 0 ≤ e.clicks) : 0 ≤ proj events d t p m := by
  unfold proj
  split_ifs
  · refine roundHalfEven_nonneg ?_
    have ha : (0 : ℚ) ≤ (agg events p m : ℚ) := by exact_mod_cast agg_nonneg events p m hpos
    exact mul_nonneg (div_nonneg ha (by positivity)) (by positivity)
  · exact agg_nonneg events p m hpos

/-- C3 (amended): each row's trend is the rounded normalized OLS slope of
its history series against the index `0, 1, 2, …`, and for non-negative
click inputs the sign is weakly consistent: strictly increasing histories
give a trend `≥ 0`, strictly decreasing ones `≤ 0`, constant ones exactly
`0` — in each case whenever the trend value is defined (non-NaN). -/
theorem c3_trend_sign_amended (events : List Event) (d t : ℕ) (r : Report)
    (hload : loadData events d t = some r)
    (hpos : ∀ e ∈ events, 0 ≤ e.clicks) :
    ∀ row ∈ r.rows,
      row.trend_percentage = trendPct (row.clicks_history.map (fun z : ℤ => (z : ℚ)))
      ∧ (row.clicks_history.Sorted (· < ·) →
          ∀ q, row.trend_percentage = some q → 0 ≤ q)
      ∧ (row.clicks_history.Sorted (· > ·) →
          ∀ q, row.trend_percentage = some q → q ≤ 0)
      ∧ (∀ c : ℤ, (∀ x ∈ row.clicks_history, x = c) →
          ∀ q, row.trend_percentage = some q → q = 0) := by
  intro row hrow
  obtain ⟨p, hp, rfl⟩ := mem_rows_eq_mkRow hload hrow
  have hentries : ∀ y ∈ (mkRow events d t p).clicks_history.map (fun z : ℤ => (z : ℚ)), 0 ≤ y := by
    intro y hy
    obtain ⟨z, hz, rfl⟩ := List.mem_map.1 hy
    rw [mkRow_history] at hz
    obtain ⟨m, hm, rfl⟩ := List.mem_map.1 hz
    exact_mod_cast proj_nonneg events d t p m hpos
  have htr : (mkRow events d t p).trend_percentage =
      trendPct ((mkRow events d t p).clicks_history.map (fun z : ℤ => (z : ℚ))) := by
    rw [mkRow_trend, mkRow_history]
  refine ⟨htr, ?_, ?_, ?_⟩
  · intro hsorted q hq
    rw [htr] at hq
    have hsorted' : ((mkRow events d t p).clicks_history.map (fun z : ℤ => (z : ℚ))).Sorted (· ≤ ·) := by
      rw [List.Sorted, List.pairwise_map]
      exact hsorted.imp fun hab => by exact_mod_cast le_of_lt hab
    exact trendPct_nonneg hentries hsorted' hq
  · intro hsorted q hq
    have hsorted' : ((mkRow events d t p).clicks_history.map (fun z : ℤ => (z : ℚ))).Sorted (· ≥ ·) := by
      rw [List.Sorted, List.pairwise_map]
      exact hsorted.imp fun hab => by exact_mod_cast le_of_lt hab
    rw [htr] at hq
    exact trendPct_nonpos hentries hsorted' hq
  · intro c hc q hq
    have hc' : ∀ x ∈ (mkRow events d t p).clicks_history.map (fun z : ℤ => (z : ℚ)), x = (c : ℚ) := by
      intro x hx
      obtain ⟨z, hz, rfl⟩ := List.mem_map.1 hx
      exact_mod_cast congrArg Int.cast (hc z hz)
    rw [htr] at hq
    exact trendPct_constant hc' hq

/-- The strictly increasing counterexample input for C3: projection is the
identity (`d = t`), the history is `[2000, 2001]`. -/
def evC3 : List Event := [⟨"/i", 0, 2000⟩, ⟨"/i", 1, 2001⟩]

/-- The single report row on `evC3`: the tiny positive slope rounds to a
trend of exactly `0.0`. -/
def rowC3 : ReportRow :=
  { page := "/i", pivot := [2000, 2001], clicks_history := [2000, 2001],
    total_clicks := 4001, real_clicks_current_month := some 2001,
    trend_percentage := some 0 }

/-- The report on `evC3`. -/
def reportC3 : Report :=
  { rows := [rowC3]
    columns := [ColLabel.page, ColLabel.projectedTag (ColLabel.month 0), ColLabel.month 1,
                ColLabel.clicksHistory, ColLabel.totalClicks,
                ColLabel.realClicksCurrentMonth, ColLabel.trendPercentage] }

/-- Evaluation of the pipeline on `evC3`. -/
theorem loadData_evC3 : loadData evC3 30 30 = some reportC3 := by
  norm_num +decide [evC3, rowC3, reportC3, loadData, mkRow, pagesOf, monthsOfAll,
    lastMonthOf, hasRow, agg, proj, pageMonths, trendPct, meanQ, sY, ContentDecay.slope,
    sXY, sX, sXX, round1, roundHalfEven, rawColumns, metaColumns, renameLastMonthColumn,
    Finset.sum_range_succ, List.insertionSort, List.orderedInsert, List.dedup_cons_of_mem,
    List.dedup_cons_of_not_mem, Int.floor_eq_iff]

/-- Counterexample to C3 as stated: the strictly increasing history
`[2000, 2001]` has OLS slope `1` and mean `2000.5`, whose normalized
percentage `≈ 0.0499…` rounds to `0.0` — not `> 0`. -/
theorem c3_counterexample :
    loadData evC3 30 30 = some reportC3 ∧
    ∃ row ∈ reportC3.rows, row.clicks_history.Sorted (· < ·) ∧
      row.trend_percentage = some 0 ∧
      ∃ q, row.trend_percentage = some q ∧ ¬ 0 < q := by
  refine ⟨loadData_evC3, rowC3, by simp [reportC3], by decide, rfl, 0, rfl, by norm_num⟩

/-- The spec's own trend example, used as the C3 witness input: history
`[50, 100, 150]`, slope `50`, mean `100`, trend `50.0`. -/
def evC3w : List Event := [⟨"/b", 0, 50⟩, ⟨"/b", 1, 100⟩, ⟨"/b", 2, 150⟩]

/-- The single report row on `evC3w`. -/
def rowC3w : ReportRow :=
  { page := "/b", pivot := [50, 100, 150], clicks_history := [50, 100, 150],
    total_clicks := 300, real_clicks_current_month := some 150,
    trend_percentage := some 50 }

/-- The report on `evC3w` (three months, so `columns[-6]` is month 1). -/
def reportC3w : Report :=
  { rows := [rowC3w]
    columns := [ColLabel.page, ColLabel.month 0, ColLabel.projectedTag (ColLabel.month 1),
                ColLabel.month 2, ColLabel.clicksHistory, ColLabel.totalClicks,
                ColLabel.realClicksCurrentMonth, ColLabel.trendPercentage] }

/-- Evaluation of the pipeline on `evC3w`. -/
theorem loadData_evC3w : loadData evC3w 30 30 = some reportC3w := by
  norm_num +decide [evC3w, rowC3w, reportC3w, loadData, mkRow, pagesOf, monthsOfAll,
    lastMonthOf, hasRow, agg, proj, pageMonths, trendPct, meanQ, sY, ContentDecay.slope,
    sXY, sX, sXX, round1, roundHalfEven, rawColumns, metaColumns, renameLastMonthColumn,
    Finset.sum_range_succ, List.insertionSort, List.orderedInsert, List.dedup_cons_of_mem,
    List.dedup_cons_of_not_mem, Int.floor_eq_iff]

/-- Witness for C3's amended theorem: on the spec's `[50, 100, 150]`
example the history is strictly increasing, the trend is `50.0`, and the
amended sign bound `0 ≤ 50` follows by applying the theorem. -/
theorem c3_witness :
    rowC3w.clicks_history.Sorted (· < ·) ∧ rowC3w.trend_percentage = some 50 ∧
      (0 : ℚ) ≤ 50 := by
  have h := c3_trend_sign_amended evC3w 30 30 reportC3w loadData_evC3w (by decide)
  have hmem : rowC3w ∈ reportC3w.rows := by simp [reportC3w]
  have hsorted : rowC3w.clicks_history.Sorted (· < ·) := by decide
  exact ⟨hsorted, rfl, (h rowC3w hmem).2.1 hsorted 50 rfl⟩

/-! ### C10: unconditional alias renaming in the normalizer -/

/-- One alias pass is the pointwise substitution of that alias. -/
theorem renameVariantStep_eq (cs : List String) (v : String) :
    renameVariantStep cs v = cs.map (fun c => if c = v then "page" else c) := by
  unfold renameVariantStep
  by_cases h : v ∈ cs
  · rw [if_pos h]
  · rw [if_neg h]
    symm
    calc cs.map (fun c => if c = v then "page" else c)
        = cs.map id := List.map_congr_left fun c hc => if_neg fun (e : c = v) => h (e ▸ hc)
      _ = cs := List.map_id cs

/-- The whole alias loop substitutes `page` for every present alias at
once (the three passes are independent because no alias equals `page` or
another alias's name). -/
theorem normalizeColumns_eq (cols : List String) :
    normalizeColumns cols = (cols.map toLowerStr).map
      (fun c => if c ∈ pageVariants then "page" else c) := by
  show renameVariantStep (renameVariantStep
      (renameVariantStep (cols.map toLowerStr) "address") "adresse") "url" = _
  rw [renameVariantStep_eq, renameVariantStep_eq, renameVariantStep_eq,
    List.map_map, List.map_map]
  refine List.map_congr_left fun c _ => ?_
  by_cases h1 : c = "address" <;> by_cases h2 : c = "adresse" <;> by_cases h3 : c = "url" <;>
    simp [h1, h2, h3, pageVariants, Function.comp_def]

/-- Counting `page` columns after normalization: one per original column
whose lower-cased name is `page` or one of the aliases. -/
theorem count_page_normalize (cols : List String) :
    (normalizeColumns cols).count "page" =
      ((cols.map toLowerStr).filter
        (fun c => ("page" :: pageVariants).contains c)).length := by
  rw [normalizeColumns_eq, List.count, List.countP_map, List.countP_eq_length_filter]
  congr 1
  refine List.filter_congr fun c _ => ?_
  by_cases h1 : c = "address" <;> by_cases h2 : c = "adresse" <;> by_cases h3 : c = "url" <;>
    by_cases h4 : c = "page" <;>
    simp [h1, h2, h3, h4, pageVariants, Function.comp_def]

/-- Substituted columns other than the aliases survive unchanged. -/
theorem mem_normalizeColumns_of_not_variant (cols : List String) {c : String}
    (hc : c ∈ cols.map toLowerStr) (hv : c ∉ pageVariants) :
    c ∈ normalizeColumns cols := by
  rw [normalizeColumns_eq]
  exact List.mem_map.2 ⟨c, hc, by rw [if_neg hv]⟩

/-- C10: lower-casing then the alias loop renames every present alias
unconditionally — with exactly one column among
{`page`, `address`, `adresse`, `url`} the normalized table has exactly one
`page` column, and with two or more all of them become `page`, producing
duplicate `page` columns that still pass the required-column validation
(provided `date` and `clicks` are present). -/
theorem c10_alias_renaming (cols : List String)
    (hdate : "date" ∈ cols.map toLowerStr)
    (hclicks : "clicks" ∈ cols.map toLowerStr) :
    (((cols.map toLowerStr).filter
        (fun c => ("page" :: pageVariants).contains c)).length = 1 →
      (normalizeColumns cols).count "page" = 1)
    ∧ (2 ≤ ((cols.map toLowerStr).filter
        (fun c => ("page" :: pageVariants).contains c)).length →
      2 ≤ (normalizeColumns cols).count "page" ∧
        validColumns (normalizeColumns cols) = true) := by
  constructor
  · intro h1
    rw [count_page_normalize, h1]
  · intro h2
    have hcount : 2 ≤ (normalizeColumns cols).count "page" := by
      rw [count_page_normalize]
      exact h2
    refine ⟨hcount, ?_⟩
    have hpage : "page" ∈ normalizeColumns cols :=
      List.count_pos_iff.1 (lt_of_lt_of_le (by norm_num) hcount)
    have hdate' : "date" ∈ normalizeColumns cols :=
      mem_normalizeColumns_of_not_variant cols hdate (by decide)
    have hclicks' : "clicks" ∈ normalizeColumns cols :=
      mem_normalizeColumns_of_not_variant cols hclicks (by decide)
    simp [validColumns, requiredColumns, hpage, hdate', hclicks']

/-- Witness for C10: `['Date', 'Clicks', 'Address', 'URL']` lower-cases to
two alias columns, both renamed to `page`, and validation passes; while
`['Date', 'Clicks', 'URL']` yields exactly one `page` column. -/
theorem c10_witness :
    ((["Date", "Clicks", "Address", "URL"].map toLowerStr).filter
        (fun c => ("page" :: pageVariants).contains c)).length = 2
    ∧ 2 ≤ (normalizeColumns ["Date", "Clicks", "Address", "URL"]).count "page"
    ∧ validColumns (normalizeColumns ["Date", "Clicks", "Address", "URL"]) = true
    ∧ (normalizeColumns ["Date", "Clicks", "URL"]).count "page" = 1 := by
  have h1 := c10_alias_renaming ["Date", "Clicks", "Address", "URL"]
    (by decide) (by decide)
  have h2 := c10_alias_renaming ["Date", "Clicks", "URL"] (by decide) (by decide)
  refine ⟨by decide, ?_, ?_, ?_⟩
  · exact (h1.2 (by decide)).1
  · exact (h1.2 (by decide)).2
  · exact h2.1 (by decide)

end ContentDecay
